import Mathlib

/-!
Verification of the feedback-batch processing and topic-aggregation pipeline
(`src/sentiment_miner/pipeline.py`): a shallow embedding of
`analyze_feedback_batch` and `aggregate_topics`, followed by theorems
settling the specification claims about them.
-/

set_option maxRecDepth 8000

namespace SentimentMiner

/-- Characters removed by Python `str.strip()`. -/
def isPyWhitespace (c : Char) : Bool :=
  c = ' ' || c = '\t' || c = '\n' || c = '\r' || c = '\x0b' || c = '\x0c'

/-- Python `str.strip()`: drop leading and trailing whitespace characters. -/
def pyStrip (s : String) : String :=
  ⟨((s.data.dropWhile isPyWhitespace).reverse.dropWhile isPyWhitespace).reverse⟩

/-- The `AnalysisResult` dataclass from `pipeline.py`. -/
structure AnalysisResult where
  original_text : String
  sentiment : String
  topics : List String
deriving DecidableEq, Repr

/-- The `topics` field of a dspy prediction is dynamically typed: it may be a
list of strings or a bare string. -/
inductive TopicsValue where
  | str (s : String)
  | list (l : List String)
deriving DecidableEq, Repr

/-- A successful analyzer prediction, carrying `sentiment` and `topics`. -/
structure Prediction where
  sentiment : String
  topics : TopicsValue
deriving DecidableEq, Repr

/-- `prediction.topics if isinstance(prediction.topics, list) else
[prediction.topics]` from `pipeline.py`. -/
def coerceTopics : TopicsValue → List String
  | .str s => [s]
  | .list l => l

/-- The analyzer capability: per call index and text, either a prediction or
an exception message. -/
abbrev Analyzer := Nat → String → Except String Prediction

/-- tqdm postfix progress display: purely observational. -/
def progressDisplay (idx total : Nat) : Unit := ()

/-- `dspy.inspect_history` display: purely observational. -/
def historyDisplay (n : Nat) : Unit := ()

/-- One iteration of the loop in `analyze_feedback_batch`: show progress,
call the analyzer, build the result on success (after the optional debug
display) or the sentinel `"Error"` result on failure, with the exception
message truncated to its first 50 characters. -/
def analyzeOne (f : Analyzer) (show_progress debug : Bool) (total idx : Nat)
    (text : String) : AnalysisResult :=
  let _ := if show_progress then progressDisplay (idx + 1) total else ()
  match f idx text with
  | .ok p =>
      let _ := if debug then historyDisplay 1 else ()
      { original_text := text, sentiment := p.sentiment,
        topics := coerceTopics p.topics }
  | .error e =>
      { original_text := text, sentiment := "Error",
        topics := ["Analysis failed: " ++ e.take 50] }

/-- The loop of `analyze_feedback_batch` over `enumerate(texts)`. -/
def analyzeBatchGo (f : Analyzer) (show_progress debug : Bool) (total : Nat) :
    Nat → List String → List AnalysisResult
  | _, [] => []
  | idx, t :: ts =>
      analyzeOne f show_progress debug total idx t ::
        analyzeBatchGo f show_progress debug total (idx + 1) ts

/-- `analyze_feedback_batch` from `pipeline.py`. -/
def analyze_feedback_batch (f : Analyzer) (texts : List String)
    (show_progress debug : Bool) : List AnalysisResult :=
  analyzeBatchGo f show_progress debug texts.length 0 texts

/-- One `Counter` update `counter[k] += 1` on an insertion-ordered
association list; a new key is appended at the end. -/
def incr : List (String × Nat) → String → List (String × Nat)
  | [], k => [(k, 1)]
  | (k', n) :: rest, k =>
      if k' = k then (k', n + 1) :: rest else (k', n) :: incr rest k

/-- Value of key `k` in an insertion-ordered counter (0 when absent). -/
def countOf : List (String × Nat) → String → Nat
  | [], _ => 0
  | (k', n) :: rest, k => if k' = k then n else countOf rest k

/-- The keys of an association list, in stored order. -/
def keys (c : List (String × Nat)) : List String :=
  c.map Prod.fst

/-- `topic_sentiments[t][s] += 1`, creating the per-topic counter on first
use (`if topic_normalized not in topic_sentiments: ... = Counter()`). -/
def incrSent : List (String × List (String × Nat)) → String → String →
    List (String × List (String × Nat))
  | [], t, s => [(t, [(s, 1)])]
  | (t', c) :: rest, t, s =>
      if t' = t then (t', incr c s) :: rest else (t', c) :: incrSent rest t s

/-- The per-topic sentiment counter stored for `t` ([] when absent). -/
def sentsOf : List (String × List (String × Nat)) → String →
    List (String × Nat)
  | [], _ => []
  | (t', c) :: rest, t => if t' = t then c else sentsOf rest t

/-- The mutable state of the aggregation loop: `topic_counts` and
`topic_sentiments`. -/
structure AggState where
  counts : List (String × Nat)
  sents : List (String × List (String × Nat))
deriving DecidableEq, Repr

/-- The inner loop body of `aggregate_topics`: normalize the topic, skip it
when empty, otherwise bump both counters. -/
def processTopic (st : AggState) (sentiment topic : String) : AggState :=
  let t := pyStrip topic
  if t = "" then st
  else { counts := incr st.counts t, sents := incrSent st.sents t sentiment }

/-- The outer loop body of `aggregate_topics`: results with sentiment
`"Error"` are skipped entirely. -/
def processResult (st : AggState) (r : AnalysisResult) : AggState :=
  if r.sentiment = "Error" then st
  else r.topics.foldl (fun s tp => processTopic s r.sentiment tp) st

/-- Stable insertion into a count-descending list: the entry goes before the
first element whose count it meets or exceeds. -/
def insertDesc (x : String × Nat) : List (String × Nat) → List (String × Nat)
  | [] => [x]
  | y :: ys => if y.2 ≤ x.2 then x :: y :: ys else y :: insertDesc x ys

/-- `Counter.most_common()`: a stable sort by count descending (CPython sorts
the insertion-ordered items with a stable sort). -/
def sortDesc : List (String × Nat) → List (String × Nat)
  | [] => []
  | x :: xs => insertDesc x (sortDesc xs)

/-- Python `max(items, key=count)` as used by `Counter.most_common(1)`: the
first entry attaining the maximal count, scanning left to right. -/
def firstMax : List (String × Nat) → Option (String × Nat)
  | [] => none
  | x :: xs =>
      match firstMax xs with
      | none => some x
      | some m => if x.2 < m.2 then some m else some x

/-- `topic_sentiments[topic].most_common(1)[0][0]` from `pipeline.py`. -/
def dominantOf (m : List (String × List (String × Nat))) (t : String) :
    String :=
  match firstMax (sentsOf m t) with
  | some p => p.1
  | none => ""

/-- `aggregate_topics` from `pipeline.py`. -/
def aggregate_topics (results : List AnalysisResult) :
    List (String × Nat × String) :=
  let st := results.foldl processResult ⟨[], []⟩
  (sortDesc st.counts).map (fun p => (p.1, p.2, dominantOf st.sents p.1))

/-- The `(sentiment, topic)` occurrence stream the aggregation loop visits:
each topic of each non-`"Error"` result, in processing order, paired with
that result's sentiment. -/
def topicPairs (results : List AnalysisResult) : List (String × String) :=
  (results.filter (fun r => !(r.sentiment == "Error"))).flatMap
    (fun r => r.topics.map (fun tp => (r.sentiment, tp)))

/-- The trimmed, non-empty topic occurrences of a `(sentiment, topic)`
stream, in order. -/
def occsOfPairs (ps : List (String × String)) : List String :=
  (ps.map (fun p => pyStrip p.2)).filter (fun t => t != "")

/-- The counted topic occurrences: trimmed topics of non-error results with
empty strings dropped, in processing order. -/
def countedOccs (results : List AnalysisResult) : List String :=
  occsOfPairs (topicPairs results)

/-- The `(trimmed topic, sentiment)` pairs actually recorded into
`topic_sentiments`, in processing order. -/
def sentPairs (ps : List (String × String)) : List (String × String) :=
  ps.filterMap (fun p =>
    let t := pyStrip p.2
    if t = "" then none else some (t, p.1))

/-- The sentiment occurrences recorded for topic `t`: one per counted
occurrence of `t`, in processing order. -/
def sentOccs (results : List AnalysisResult) (t : String) : List String :=
  ((topicPairs results).filter (fun p => pyStrip p.2 == t)).map (fun p => p.1)

/-- Folding the key of each occurrence into an insertion-ordered key list:
the key order produced by repeated `incr`. -/
def keyFold (ks : List String) (l : List String) : List String :=
  l.foldl (fun ks t => if t ∈ ks then ks else ks ++ [t]) ks

/-- The C6 claim's tie-break rule, scanning the per-topic sentiment
occurrences in processing order for the first sentiment whose running count
reaches `k`. -/
def firstToReachAux (k : Nat) (seen : List String) : List String →
    Option String
  | [] => none
  | s :: rest =>
      if (seen ++ [s]).count s = k then some s
      else firstToReachAux k (seen ++ [s]) rest

/-- The C6 claim's dominant-sentiment rule: among the sentiments attaining
the maximal per-topic count, the one that reached that count first in
processing order. -/
def claimDominant (occ : List String) : Option String :=
  firstToReachAux ((occ.map (fun s => occ.count s)).foldl max 0) [] occ

/-- The analyzer used in the isolation witness: it fails at call index 1 and
succeeds elsewhere. -/
def failAtOneAnalyzer : Analyzer := fun n _ =>
  if n = 1 then .error "x" else .ok ⟨"Positive", .list ["T"]⟩

/-- A batch whose topic `"X"` carries the sentiment stream
`Positive, Negative, Negative, Positive`: both sentiments tie at count 2,
`"Negative"` reaches count 2 first, but `"Positive"` was encountered
first. -/
def tieResults : List AnalysisResult :=
  [⟨"a", "Positive", ["X"]⟩, ⟨"b", "Negative", ["X"]⟩,
   ⟨"c", "Negative", ["X"]⟩, ⟨"d", "Positive", ["X"]⟩]

/-! ### Lemmas about the batch loop -/

theorem analyzeBatchGo_map_original (f : Analyzer) (sp dbg : Bool)
    (total : Nat) :
    ∀ (ts : List String) (idx : Nat),
      (analyzeBatchGo f sp dbg total idx ts).map AnalysisResult.original_text
        = ts := by
  intro ts
  induction ts with
  | nil => intro idx; rfl
  | cons t ts ih =>
      intro idx
      simp only [analyzeBatchGo, List.map_cons, ih]
      cases hf : f idx t <;> simp [analyzeOne, hf]

theorem analyzeBatchGo_length (f : Analyzer) (sp dbg : Bool) (total : Nat) :
    ∀ (ts : List String) (idx : Nat),
      (analyzeBatchGo f sp dbg total idx ts).length = ts.length := by
  intro ts
  induction ts with
  | nil => intro idx; rfl
  | cons t ts ih => intro idx; simp [analyzeBatchGo, ih]

theorem analyzeBatchGo_getElem? (f : Analyzer) (sp dbg : Bool) (total : Nat) :
    ∀ (ts : List String) (idx i : Nat),
      (analyzeBatchGo f sp dbg total idx ts)[i]? =
        ts[i]?.map (fun t => analyzeOne f sp dbg total (idx + i) t) := by
  intro ts
  induction ts with
  | nil => intro idx i; rfl
  | cons t ts ih =>
      intro idx i
      cases i with
      | zero => simp [analyzeBatchGo]
      | succ i =>
          simp only [analyzeBatchGo, List.getElem?_cons_succ, ih]
          have : idx + 1 + i = idx + (i + 1) := by omega
          rw [this]

theorem analyze_feedback_batch_getElem? (f : Analyzer) (texts : List String)
    (sp dbg : Bool) (i : Nat) :
    (analyze_feedback_batch f texts sp dbg)[i]? =
      texts[i]?.map (fun t => analyzeOne f sp dbg texts.length i t) := by
  unfold analyze_feedback_batch
  rw [analyzeBatchGo_getElem?]
  simp

/-- C1: `analyze_feedback_batch` returns exactly one result per input text,
in input order, with `original_text` equal to the input text unchanged: the
projection of the output to `original_text` is the input list itself. -/
theorem batch_preserves_rows (f : Analyzer) (texts : List String)
    (sp dbg : Bool) :
    (analyze_feedback_batch f texts sp dbg).length = texts.length ∧
    (analyze_feedback_batch f texts sp dbg).map AnalysisResult.original_text
      = texts :=
  ⟨analyzeBatchGo_length f sp dbg texts.length texts 0,
   analyzeBatchGo_map_original f sp dbg texts.length texts 0⟩

/-- C2: when the analyzer fails at index `i` with message `m`, the batch does
not propagate the failure: the `i`-th result is the sentinel with sentiment
`"Error"` and the single topic `"Analysis failed: "` followed by the first 50
characters of `m`. -/
theorem batch_error_sentinel (f : Analyzer) (texts : List String)
    (sp dbg : Bool) (i : Nat) (m : String) (hi : i < texts.length)
    (hf : f i texts[i] = .error m) :
    (analyze_feedback_batch f texts sp dbg)[i]? =
      some ⟨texts[i], "Error", ["Analysis failed: " ++ m.take 50]⟩ := by
  rw [analyze_feedback_batch_getElem?, List.getElem?_eq_getElem hi]
  simp [analyzeOne, hf]

theorem batch_error_sentinel_witness :
    (analyze_feedback_batch (fun _ _ => .error "boom") ["a"] true false)[0]? =
      some ⟨"a", "Error", ["Analysis failed: boom"]⟩ :=
  batch_error_sentinel (fun _ _ => .error "boom") ["a"] true false 0 "boom"
    (by decide) rfl

/-- C3: if the analyzer fails for exactly one index `i` (and its successful
predictions never carry the sentiment `"Error"`), then in the output only
index `i` has sentiment `"Error"`, and every other index carries exactly the
result built from the analyzer's successful prediction. -/
theorem batch_single_failure_isolated (f : Analyzer) (texts : List String)
    (sp dbg : Bool) (i : Nat) (hi : i < texts.length)
    (hfail : ∃ m, f i texts[i] = .error m)
    (hsucc : ∀ j (hj : j < texts.length), j ≠ i →
      ∃ p, f j texts[j] = .ok p ∧ p.sentiment ≠ "Error") :
    ∀ j (hj : j < texts.length) r,
      (analyze_feedback_batch f texts sp dbg)[j]? = some r →
      ((r.sentiment = "Error" ↔ j = i) ∧
       ∀ p, f j texts[j] = .ok p →
         r = ⟨texts[j], p.sentiment, coerceTopics p.topics⟩) := by
  intro j hj r hr
  rw [analyze_feedback_batch_getElem?, List.getElem?_eq_getElem hj] at hr
  simp only [Option.map_some', Option.some_inj] at hr
  by_cases hji : j = i
  · subst hji
    obtain ⟨m, hm⟩ := hfail
    constructor
    · rw [← hr]; simp [analyzeOne, hm]
    · intro p hp; rw [hm] at hp; cases hp
  · obtain ⟨p, hp, hps⟩ := hsucc j hj hji
    constructor
    · rw [← hr]
      simp only [analyzeOne, hp]
      exact ⟨fun h => absurd h hps, fun h => absurd h hji⟩
    · intro p' hp'
      rw [hp] at hp'
      cases hp'
      rw [← hr]
      simp [analyzeOne, hp]

theorem batch_single_failure_isolated_witness :
    ((⟨"b", "Error", ["Analysis failed: x"]⟩ : AnalysisResult).sentiment
        = "Error" ↔ (1 : Nat) = 1) ∧
    ∀ p, failAtOneAnalyzer 1 "b" = .ok p →
      (⟨"b", "Error", ["Analysis failed: x"]⟩ : AnalysisResult)
        = ⟨"b", p.sentiment, coerceTopics p.topics⟩ :=
  batch_single_failure_isolated failAtOneAnalyzer ["a", "b", "c"] false false
    1 (by decide) ⟨"x", rfl⟩
    (by
      intro j hj hne
      refine ⟨⟨"Positive", .list ["T"]⟩, ?_, by decide⟩
      simp [failAtOneAnalyzer, hne])
    1 (by decide) ⟨"b", "Error", ["Analysis failed: x"]⟩ (by decide)

/-- C9: `show_progress` and `debug` are observational only — the returned
list of results is the same for every combination of the two flags. -/
theorem batch_flags_observational (f : Analyzer) (texts : List String)
    (sp1 dbg1 sp2 dbg2 : Bool) :
    analyze_feedback_batch f texts sp1 dbg1
      = analyze_feedback_batch f texts sp2 dbg2 := by
  have go_eq : ∀ (total : Nat) (ts : List String) (idx : Nat),
      analyzeBatchGo f sp1 dbg1 total idx ts
        = analyzeBatchGo f sp2 dbg2 total idx ts := by
    intro total ts
    induction ts with
    | nil => intro idx; rfl
    | cons u us ihu =>
        intro idx
        simp only [analyzeBatchGo, ihu]
        cases hf : f idx u <;> simp [analyzeOne, hf]
  unfold analyze_feedback_batch
  exact go_eq texts.length texts 0

/-! ### Lemmas about trimming -/

theorem dropWhile_head_false (l : List Char) (c : Char) (cs : List Char)
    (h : l.dropWhile isPyWhitespace = c :: cs) : isPyWhitespace c = false := by
  induction l with
  | nil => cases h
  | cons a as ih =>
      rw [List.dropWhile_cons] at h
      by_cases ha : isPyWhitespace a = true
      · rw [if_pos ha] at h; exact ih h
      · rw [if_neg ha] at h
        cases h
        simpa using ha

theorem dropWhile_dropWhile_py (l : List Char) :
    (l.dropWhile isPyWhitespace).dropWhile isPyWhitespace
      = l.dropWhile isPyWhitespace := by
  cases h : l.dropWhile isPyWhitespace with
  | nil => rfl
  | cons c cs =>
      have hc := dropWhile_head_false l c cs h
      simp [List.dropWhile_cons, hc]

theorem dropWhile_reverse_head (l : List Char) :
    ((l.dropWhile isPyWhitespace).reverse.dropWhile
        isPyWhitespace).reverse.dropWhile isPyWhitespace
      = ((l.dropWhile isPyWhitespace).reverse.dropWhile
          isPyWhitespace).reverse := by
  cases hBr : ((l.dropWhile isPyWhitespace).reverse.dropWhile
      isPyWhitespace).reverse with
  | nil => rfl
  | cons c cs =>
      obtain ⟨j, hj⟩ : ∃ j, j = ((l.dropWhile isPyWhitespace).reverse.takeWhile
          isPyWhitespace).reverse := ⟨_, rfl⟩
      have hsplit : l.dropWhile isPyWhitespace
          = ((l.dropWhile isPyWhitespace).reverse.dropWhile
              isPyWhitespace).reverse ++ j := by
        rw [hj, ← List.reverse_append, List.takeWhile_append_dropWhile,
          List.reverse_reverse]
      rw [hBr] at hsplit
      have hc : isPyWhitespace c = false := by
        apply dropWhile_head_false l c (cs ++ j)
        rw [hsplit, List.cons_append]
      simp [List.dropWhile_cons, hc]

theorem trim_fixed (l : List Char) :
    (((((l.dropWhile isPyWhitespace).reverse.dropWhile
            isPyWhitespace).reverse).dropWhile
          isPyWhitespace).reverse.dropWhile isPyWhitespace).reverse
      = ((l.dropWhile isPyWhitespace).reverse.dropWhile
          isPyWhitespace).reverse := by
  rw [dropWhile_reverse_head l, List.reverse_reverse,
    dropWhile_dropWhile_py]

theorem pyStrip_idem (s : String) : pyStrip (pyStrip s) = pyStrip s :=
  congrArg String.mk (trim_fixed s.data)

/-! ### Flattening the aggregation loop -/

theorem foldl_processResult_filter (results : List AnalysisResult)
    (st : AggState) :
    results.foldl processResult st
      = (results.filter (fun r => !(r.sentiment == "Error"))).foldl
          processResult st := by
  induction results generalizing st with
  | nil => rfl
  | cons r rs ih =>
      by_cases h : r.sentiment = "Error"
      · simp only [List.foldl_cons, List.filter_cons, h]
        simp only [processResult, if_pos h]
        simpa using ih st
      · simp only [List.foldl_cons, List.filter_cons]
        have : (r.sentiment == "Error") = false := by
          simp [h]
        rw [this]
        simp only [Bool.not_false, if_pos rfl, List.foldl_cons]
        exact ih (processResult st r)

theorem topicPairs_cons (r : AnalysisResult) (rs : List AnalysisResult) :
    topicPairs (r :: rs) =
      if r.sentiment = "Error" then topicPairs rs
      else r.topics.map (fun tp => (r.sentiment, tp)) ++ topicPairs rs := by
  by_cases h : r.sentiment = "Error"
  · simp [topicPairs, List.filter_cons, h]
  · simp [topicPairs, List.filter_cons, h]

theorem foldl_processResult_eq_pairs (results : List AnalysisResult)
    (st : AggState) :
    results.foldl processResult st
      = (topicPairs results).foldl (fun s p => processTopic s p.1 p.2) st := by
  induction results generalizing st with
  | nil => rfl
  | cons r rs ih =>
      rw [List.foldl_cons, topicPairs_cons]
      by_cases h : r.sentiment = "Error"
      · rw [if_pos h, ← ih]
        simp [processResult, h]
      · rw [if_neg h, List.foldl_append, ← ih]
        simp only [processResult, if_neg h]
        rw [List.foldl_map]

theorem counts_foldl (ps : List (String × String)) (st : AggState) :
    (ps.foldl (fun s p => processTopic s p.1 p.2) st).counts
      = (occsOfPairs ps).foldl incr st.counts := by
  induction ps generalizing st with
  | nil => rfl
  | cons p ps ih =>
      rw [List.foldl_cons]
      by_cases h : pyStrip p.2 = ""
      · have : occsOfPairs (p :: ps) = occsOfPairs ps := by
          simp [occsOfPairs, List.filter_cons, h]
        rw [this, ← ih]
        simp [processTopic, h]
      · have : occsOfPairs (p :: ps) = pyStrip p.2 :: occsOfPairs ps := by
          simp [occsOfPairs, List.filter_cons, h]
        rw [this, List.foldl_cons, ih]
        simp [processTopic, h]

theorem sents_foldl (ps : List (String × String)) (st : AggState) :
    (ps.foldl (fun s p => processTopic s p.1 p.2) st).sents
      = (sentPairs ps).foldl (fun m q => incrSent m q.1 q.2) st.sents := by
  induction ps generalizing st with
  | nil => rfl
  | cons p ps ih =>
      rw [List.foldl_cons]
      by_cases h : pyStrip p.2 = ""
      · have : sentPairs (p :: ps) = sentPairs ps := by
          simp [sentPairs, List.filterMap_cons, h]
        rw [this, ← ih]
        simp [processTopic, h]
      · have : sentPairs (p :: ps)
            = (pyStrip p.2, p.1) :: sentPairs ps := by
          simp [sentPairs, List.filterMap_cons, h]
        rw [this, List.foldl_cons, ih]
        simp [processTopic, h]

/-! ### Counter lemmas -/

theorem keys_cons (p : String × Nat) (l : List (String × Nat)) :
    keys (p :: l) = p.1 :: keys l := rfl

theorem countOf_incr (c : List (String × Nat)) (k k' : String) :
    countOf (incr c k) k'
      = if k = k' then countOf c k' + 1 else countOf c k' := by
  induction c with
  | nil => by_cases h : k = k' <;> simp [incr, countOf, h]
  | cons p rest ih =>
      obtain ⟨k0, n0⟩ := p
      by_cases h0 : k0 = k
      · subst h0
        by_cases h1 : k0 = k' <;> simp [incr, countOf, h1]
      · by_cases h1 : k0 = k'
        · subst h1
          have h2 : ¬ k = k0 := fun h => h0 h.symm
          simp [incr, countOf, h0, h2]
        · simp [incr, countOf, h0, h1, ih]

theorem keys_incr (c : List (String × Nat)) (k : String) :
    keys (incr c k) = if k ∈ keys c then keys c else keys c ++ [k] := by
  induction c with
  | nil => simp [incr, keys]
  | cons p rest ih =>
      obtain ⟨k0, n0⟩ := p
      by_cases h0 : k0 = k
      · subst h0
        have h2 : incr ((k0, n0) :: rest) k0 = (k0, n0 + 1) :: rest := by
          simp [incr]
        rw [h2, keys_cons, keys_cons]
        simp [List.mem_cons]
      · have h2 : incr ((k0, n0) :: rest) k = (k0, n0) :: incr rest k := by
          simp [incr, h0]
        rw [h2, keys_cons, keys_cons, ih]
        have hk : ¬ k = k0 := fun h => h0 h.symm
        by_cases hm : k ∈ keys rest
        · simp [hm, List.mem_cons]
        · simp [hm, List.mem_cons, hk]

theorem countOf_foldl_incr (l : List String) :
    ∀ (acc : List (String × Nat)) (k : String),
      countOf (l.foldl incr acc) k = countOf acc k + l.count k := by
  induction l with
  | nil => intro acc k; simp
  | cons a as ih =>
      intro acc k
      rw [List.foldl_cons, ih, countOf_incr]
      by_cases h : a = k <;> simp [h, List.count_cons] <;> omega

theorem keys_foldl_incr (l : List String) :
    ∀ acc, keys (l.foldl incr acc) = keyFold (keys acc) l := by
  induction l with
  | nil => intro acc; rfl
  | cons a as ih =>
      intro acc
      rw [List.foldl_cons, ih, keys_incr]
      rfl

theorem mem_keyFold (l : List String) :
    ∀ (ks : List String) (a : String),
      a ∈ keyFold ks l ↔ a ∈ ks ∨ a ∈ l := by
  induction l with
  | nil => intro ks a; simp [keyFold]
  | cons t ts ih =>
      intro ks a
      rw [show keyFold ks (t :: ts)
          = keyFold (if t ∈ ks then ks else ks ++ [t]) ts from rfl, ih]
      by_cases h : t ∈ ks
      · rw [if_pos h]
        constructor
        · rintro (h1 | h1)
          · exact Or.inl h1
          · exact Or.inr (List.mem_cons_of_mem _ h1)
        · rintro (h1 | h1)
          · exact Or.inl h1
          · rcases List.mem_cons.mp h1 with h2 | h2
            · exact Or.inl (h2 ▸ h)
            · exact Or.inr h2
      · rw [if_neg h]
        simp only [List.mem_append, List.mem_cons, List.mem_singleton]
        tauto

theorem keyFold_nodup (l : List String) :
    ∀ ks : List String, ks.Nodup → (keyFold ks l).Nodup := by
  induction l with
  | nil => intro ks h; exact h
  | cons t ts ih =>
      intro ks h
      rw [show keyFold ks (t :: ts)
          = keyFold (if t ∈ ks then ks else ks ++ [t]) ts from rfl]
      by_cases hm : t ∈ ks
      · rw [if_pos hm]; exact ih ks h
      · rw [if_neg hm]
        refine ih _ ?_
        simp [List.nodup_append, h, hm]

theorem keyFold_pairwise_aux (todo : List String) :
    ∀ (done ks : List String),
      (∀ a ∈ ks, a ∈ done) → (∀ a ∈ done, a ∈ ks) →
      List.Pairwise (fun a b => (done ++ todo).indexOf a
        < (done ++ todo).indexOf b) ks →
      List.Pairwise (fun a b => (done ++ todo).indexOf a
        < (done ++ todo).indexOf b) (keyFold ks todo) := by
  induction todo with
  | nil => intro done ks h1 h2 hp; exact hp
  | cons t ts ih =>
      intro done ks h1 h2 hp
      have hassoc : done ++ t :: ts = (done ++ [t]) ++ ts := by simp
      rw [show keyFold ks (t :: ts)
          = keyFold (if t ∈ ks then ks else ks ++ [t]) ts from rfl]
      rw [hassoc] at hp ⊢
      by_cases hm : t ∈ ks
      · rw [if_pos hm]
        apply ih (done ++ [t]) ks
        · intro a ha; exact List.mem_append.mpr (Or.inl (h1 a ha))
        · intro a ha
          rcases List.mem_append.mp ha with h3 | h3
          · exact h2 a h3
          · rw [List.mem_singleton] at h3; exact h3 ▸ hm
        · exact hp
      · rw [if_neg hm]
        have htd : t ∉ done := fun hc => hm (h2 t hc)
        apply ih (done ++ [t]) (ks ++ [t])
        · intro a ha
          rcases List.mem_append.mp ha with h3 | h3
          · exact List.mem_append.mpr (Or.inl (h1 a h3))
          · exact List.mem_append.mpr (Or.inr h3)
        · intro a ha
          rcases List.mem_append.mp ha with h3 | h3
          · exact List.mem_append.mpr (Or.inl (h2 a h3))
          · exact List.mem_append.mpr (Or.inr h3)
        · rw [List.pairwise_append]
          refine ⟨hp, by simp, ?_⟩
          intro a ha b hb
          rw [List.mem_singleton] at hb
          rw [hb]
          have had : a ∈ done := h1 a ha
          have h4 : ((done ++ [t]) ++ ts).indexOf a = done.indexOf a := by
            rw [List.indexOf_append_of_mem
                (show a ∈ done ++ [t] from List.mem_append.mpr (Or.inl had)),
              List.indexOf_append_of_mem had]
          have h5 : ((done ++ [t]) ++ ts).indexOf t = done.length := by
            rw [List.indexOf_append_of_mem
                (show t ∈ done ++ [t] from
                  List.mem_append.mpr (Or.inr (List.mem_singleton.mpr rfl))),
              List.indexOf_append_of_not_mem htd]
            simp
          have h6 : done.indexOf a < done.length :=
            List.indexOf_lt_length.mpr had
          omega

theorem counts_keys_firstOcc (occs : List String) :
    List.Pairwise (fun a b => occs.indexOf a < occs.indexOf b)
      (keys (occs.foldl incr [])) := by
  rw [keys_foldl_incr occs []]
  have h := keyFold_pairwise_aux occs [] []
      (by intro a ha; cases ha) (by intro a ha; cases ha) List.Pairwise.nil
  simpa [keys] using h

theorem counts_pairwise_firstOcc (occs : List String) :
    List.Pairwise
      (fun p q : String × Nat => occs.indexOf p.1 < occs.indexOf q.1)
      (occs.foldl incr []) := by
  have h := counts_keys_firstOcc occs
  rw [keys, List.pairwise_map] at h
  exact h

theorem mem_keys_foldl_incr (occs : List String) (a : String) :
    a ∈ keys (occs.foldl incr []) ↔ a ∈ occs := by
  rw [keys_foldl_incr occs [], mem_keyFold]
  simp [keys]

theorem keys_foldl_incr_nodup (occs : List String) :
    (keys (occs.foldl incr [])).Nodup := by
  rw [keys_foldl_incr occs []]
  exact keyFold_nodup occs _ (by simp [keys])

theorem mem_of_countOf (c : List (String × Nat)) (k : String)
    (h : k ∈ keys c) : (k, countOf c k) ∈ c := by
  induction c with
  | nil => simp [keys] at h
  | cons p rest ih =>
      obtain ⟨k0, n0⟩ := p
      by_cases h0 : k0 = k
      · subst h0; simp [countOf]
      · have hk : k ∈ keys rest := by
          rw [keys_cons, List.mem_cons] at h
          rcases h with h | h
          · exact absurd h.symm h0
          · exact h
        have : countOf ((k0, n0) :: rest) k = countOf rest k := by
          simp [countOf, h0]
        rw [this]
        exact List.mem_cons_of_mem _ (ih hk)

theorem countOf_eq_of_mem (c : List (String × Nat)) (t : String) (n : Nat)
    (hnd : (keys c).Nodup) (h : (t, n) ∈ c) : countOf c t = n := by
  induction c with
  | nil => cases h
  | cons p rest ih =>
      obtain ⟨k0, n0⟩ := p
      rw [keys_cons, List.nodup_cons] at hnd
      rcases List.mem_cons.mp h with h1 | h1
      · cases h1; simp [countOf]
      · have hk0 : ¬ k0 = t := by
          intro he; subst he
          exact hnd.1 (List.mem_map.mpr ⟨(k0, n), h1, rfl⟩)
        simp only [countOf, if_neg hk0]
        exact ih hnd.2 h1

theorem sentsOf_incrSent (m : List (String × List (String × Nat)))
    (t s t' : String) :
    sentsOf (incrSent m t s) t'
      = if t = t' then incr (sentsOf m t') s else sentsOf m t' := by
  induction m with
  | nil => by_cases h : t = t' <;> simp [incrSent, sentsOf, incr, h]
  | cons p rest ih =>
      obtain ⟨t0, c0⟩ := p
      by_cases h0 : t0 = t
      · subst h0
        by_cases h1 : t0 = t'
        · subst h1; simp [incrSent, sentsOf]
        · simp [incrSent, sentsOf, h1]
      · by_cases h1 : t0 = t'
        · subst h1
          have h2 : ¬ t = t0 := fun h => h0 h.symm
          simp [incrSent, sentsOf, h0, h2]
        · simp [incrSent, sentsOf, h0, h1, ih]

theorem sentsOf_foldl_incrSent (qs : List (String × String)) :
    ∀ (m0 : List (String × List (String × Nat))) (t : String),
      sentsOf (qs.foldl (fun m q => incrSent m q.1 q.2) m0) t
        = ((qs.filter (fun q => q.1 == t)).map (fun q => q.2)).foldl incr
            (sentsOf m0 t) := by
  induction qs with
  | nil => intro m0 t; rfl
  | cons q qs ih =>
      intro m0 t
      rw [List.foldl_cons, ih, sentsOf_incrSent]
      by_cases h : q.1 = t
      · simp [List.filter_cons, h]
      · simp [List.filter_cons, h]

theorem sentPairs_filter_eq (ps : List (String × String)) (t : String)
    (ht : t ≠ "") :
    ((sentPairs ps).filter (fun q => q.1 == t)).map (fun q => q.2)
      = (ps.filter (fun p => pyStrip p.2 == t)).map (fun p => p.1) := by
  induction ps with
  | nil => rfl
  | cons p ps ih =>
      by_cases h : pyStrip p.2 = ""
      · have h1 : sentPairs (p :: ps) = sentPairs ps := by
          simp [sentPairs, List.filterMap_cons, h]
        have h2 : (p :: ps).filter (fun p => pyStrip p.2 == t)
            = ps.filter (fun p => pyStrip p.2 == t) := by
          have : ¬ pyStrip p.2 = t := by rw [h]; exact fun hc => ht hc.symm
          simp [List.filter_cons, this]
        rw [h1, h2, ih]
      · have h1 : sentPairs (p :: ps) = (pyStrip p.2, p.1) :: sentPairs ps := by
          simp [sentPairs, List.filterMap_cons, h]
        rw [h1]
        by_cases h2 : pyStrip p.2 = t
        · have h3 : ((pyStrip p.2, p.1) :: sentPairs ps).filter
              (fun q => q.1 == t)
              = (pyStrip p.2, p.1) :: (sentPairs ps).filter
                  (fun q => q.1 == t) := by
            simp [List.filter_cons, h2]
          have h4 : (p :: ps).filter (fun p => pyStrip p.2 == t)
              = p :: ps.filter (fun p => pyStrip p.2 == t) := by
            simp [List.filter_cons, h2]
          rw [h3, h4, List.map_cons, List.map_cons, ih]
        · have h3 : ((pyStrip p.2, p.1) :: sentPairs ps).filter
              (fun q => q.1 == t)
              = (sentPairs ps).filter (fun q => q.1 == t) := by
            simp [List.filter_cons, h2]
          have h4 : (p :: ps).filter (fun p => pyStrip p.2 == t)
              = ps.filter (fun p => pyStrip p.2 == t) := by
            simp [List.filter_cons, h2]
          rw [h3, h4, ih]

theorem aggregate_counts (results : List AnalysisResult) :
    (results.foldl processResult ⟨[], []⟩).counts
      = (countedOccs results).foldl incr [] := by
  rw [foldl_processResult_eq_pairs, counts_foldl]
  rfl

theorem aggregate_sents (results : List AnalysisResult) (t : String)
    (ht : t ≠ "") :
    sentsOf (results.foldl processResult ⟨[], []⟩).sents t
      = (sentOccs results t).foldl incr [] := by
  rw [foldl_processResult_eq_pairs, sents_foldl, sentsOf_foldl_incrSent,
    sentPairs_filter_eq _ t ht]
  rfl

/-! ### Sorting and maximum-selection lemmas -/

theorem mem_insertDesc (x : String × Nat) (l : List (String × Nat))
    (a : String × Nat) : a ∈ insertDesc x l ↔ a = x ∨ a ∈ l := by
  induction l with
  | nil => simp [insertDesc]
  | cons y ys ih =>
      by_cases h : y.2 ≤ x.2
      · simp [insertDesc, h, List.mem_cons]
      · simp only [insertDesc, if_neg h, List.mem_cons, ih]
        tauto

theorem mem_sortDesc (l : List (String × Nat)) (a : String × Nat) :
    a ∈ sortDesc l ↔ a ∈ l := by
  induction l with
  | nil => simp [sortDesc]
  | cons x xs ih => simp [sortDesc, mem_insertDesc, ih, List.mem_cons]

theorem insertDesc_sorted (x : String × Nat) (l : List (String × Nat))
    (hl : List.Pairwise (fun a b => b.2 ≤ a.2) l) :
    List.Pairwise (fun a b => b.2 ≤ a.2) (insertDesc x l) := by
  induction l with
  | nil => simp [insertDesc]
  | cons y ys ih =>
      rw [List.pairwise_cons] at hl
      by_cases h : y.2 ≤ x.2
      · rw [show insertDesc x (y :: ys) = x :: y :: ys from by
          simp [insertDesc, h]]
        rw [List.pairwise_cons]
        refine ⟨?_, List.pairwise_cons.mpr hl⟩
        intro z hz
        rcases List.mem_cons.mp hz with rfl | hz'
        · exact h
        · exact le_trans (hl.1 z hz') h
      · rw [show insertDesc x (y :: ys) = y :: insertDesc x ys from by
          simp [insertDesc, h]]
        rw [List.pairwise_cons]
        refine ⟨?_, ih hl.2⟩
        intro z hz
        rcases (mem_insertDesc x ys z).mp hz with rfl | hz'
        · omega
        · exact hl.1 z hz'

theorem sortDesc_sorted (l : List (String × Nat)) :
    List.Pairwise (fun a b => b.2 ≤ a.2) (sortDesc l) := by
  induction l with
  | nil => exact List.Pairwise.nil
  | cons x xs ih => exact insertDesc_sorted x (sortDesc xs) ih

theorem insertDesc_pairwise (Q : String × Nat → String × Nat → Prop)
    (hQ : ∀ a b, b.2 < a.2 → Q a b) (x : String × Nat)
    (l : List (String × Nat)) (hl : List.Pairwise Q l)
    (hx : ∀ y ∈ l, Q x y) : List.Pairwise Q (insertDesc x l) := by
  induction l with
  | nil => simp [insertDesc]
  | cons y ys ih =>
      rw [List.pairwise_cons] at hl
      by_cases h : y.2 ≤ x.2
      · rw [show insertDesc x (y :: ys) = x :: y :: ys from by
          simp [insertDesc, h]]
        exact List.pairwise_cons.mpr ⟨hx, List.pairwise_cons.mpr hl⟩
      · rw [show insertDesc x (y :: ys) = y :: insertDesc x ys from by
          simp [insertDesc, h]]
        refine List.pairwise_cons.mpr
          ⟨?_, ih hl.2 (fun z hz => hx z (List.mem_cons_of_mem _ hz))⟩
        intro z hz
        rcases (mem_insertDesc x ys z).mp hz with rfl | hz'
        · exact hQ y z (by omega)
        · exact hl.1 z hz'

theorem sortDesc_pairwise (Q : String × Nat → String × Nat → Prop)
    (hQ : ∀ a b, b.2 < a.2 → Q a b) (l : List (String × Nat))
    (hl : List.Pairwise Q l) : List.Pairwise Q (sortDesc l) := by
  induction l with
  | nil => exact List.Pairwise.nil
  | cons x xs ih =>
      rw [List.pairwise_cons] at hl
      exact insertDesc_pairwise Q hQ x (sortDesc xs) (ih hl.2)
        (fun y hy => hl.1 y ((mem_sortDesc xs y).mp hy))

theorem firstMax_cons (x : String × Nat) (xs : List (String × Nat)) :
    firstMax (x :: xs) = match firstMax xs with
      | none => some x
      | some m => if x.2 < m.2 then some m else some x := rfl

theorem firstMax_eq_none (l : List (String × Nat)) :
    firstMax l = none ↔ l = [] := by
  cases l with
  | nil => simp [firstMax]
  | cons x xs =>
      rw [firstMax_cons]
      cases firstMax xs with
      | none => simp
      | some m => by_cases h : x.2 < m.2 <;> simp [h]

theorem firstMax_mem (l : List (String × Nat)) (m : String × Nat)
    (h : firstMax l = some m) : m ∈ l := by
  induction l generalizing m with
  | nil => cases h
  | cons x xs ih =>
      rw [firstMax_cons] at h
      cases h2 : firstMax xs with
      | none => rw [h2] at h; cases h; exact List.mem_cons_self _ _
      | some m' =>
          rw [h2] at h
          replace h : (if x.2 < m'.2 then some m' else some x) = some m := h
          by_cases h3 : x.2 < m'.2
          · rw [if_pos h3] at h
            cases h
            exact List.mem_cons_of_mem _ (ih _ h2)
          · rw [if_neg h3] at h
            cases h
            exact List.mem_cons_self _ _

theorem firstMax_le (l : List (String × Nat)) (m : String × Nat)
    (h : firstMax l = some m) : ∀ x ∈ l, x.2 ≤ m.2 := by
  induction l generalizing m with
  | nil => intro x hx; cases hx
  | cons y ys ih =>
      intro x hx
      rw [firstMax_cons] at h
      cases h2 : firstMax ys with
      | none =>
          rw [h2] at h
          cases h
          have he : ys = [] := (firstMax_eq_none ys).mp h2
          subst he
          rcases List.mem_cons.mp hx with rfl | hx'
          · exact le_refl _
          · cases hx'
      | some m' =>
          rw [h2] at h
          replace h : (if y.2 < m'.2 then some m' else some y) = some m := h
          by_cases h3 : y.2 < m'.2
          · rw [if_pos h3] at h
            cases h
            rcases List.mem_cons.mp hx with rfl | hx'
            · exact le_of_lt h3
            · exact ih _ h2 x hx'
          · rw [if_neg h3] at h
            cases h
            rcases List.mem_cons.mp hx with rfl | hx'
            · exact le_refl _
            · exact le_trans (ih _ h2 x hx') (by omega)

theorem firstMax_earliest (l : List (String × Nat)) (m : String × Nat)
    (h : firstMax l = some m) :
    ∃ l1 l2, l = l1 ++ m :: l2 ∧ ∀ x ∈ l1, x.2 < m.2 := by
  induction l generalizing m with
  | nil => cases h
  | cons y ys ih =>
      rw [firstMax_cons] at h
      cases h2 : firstMax ys with
      | none =>
          rw [h2] at h
          cases h
          exact ⟨[], ys, rfl, by simp⟩
      | some m' =>
          rw [h2] at h
          replace h : (if y.2 < m'.2 then some m' else some y) = some m := h
          by_cases h3 : y.2 < m'.2
          · rw [if_pos h3] at h
            cases h
            obtain ⟨l1, l2, he, hlt⟩ := ih _ h2
            refine ⟨y :: l1, l2, by rw [List.cons_append, he], ?_⟩
            intro x hx
            rcases List.mem_cons.mp hx with rfl | hx'
            · exact h3
            · exact hlt x hx'
          · rw [if_neg h3] at h
            cases h
            exact ⟨[], ys, rfl, by simp⟩

/-! ### Elimination helpers for aggregate membership -/

theorem mem_aggregate_elim (results : List AnalysisResult) (t : String)
    (c : Nat) (d : String) (h : (t, c, d) ∈ aggregate_topics results) :
    (t, c) ∈ (countedOccs results).foldl incr [] ∧
    d = dominantOf (results.foldl processResult ⟨[], []⟩).sents t := by
  unfold aggregate_topics at h
  rw [List.mem_map] at h
  obtain ⟨p, hp, he⟩ := h
  rw [mem_sortDesc] at hp
  have h1 : p.1 = t := congrArg (fun q => q.1) he
  have h2 : p.2 = c := congrArg (fun q => q.2.1) he
  have h3 : dominantOf (results.foldl processResult ⟨[], []⟩).sents p.1 = d :=
    congrArg (fun q => q.2.2) he
  constructor
  · rw [← h1, ← h2, ← aggregate_counts]
    exact hp
  · rw [← h3, h1]

theorem mem_aggregate_count (results : List AnalysisResult) (t : String)
    (c : Nat) (h : (t, c) ∈ (countedOccs results).foldl incr []) :
    c = (countedOccs results).count t ∧ t ∈ countedOccs results := by
  have hnd := keys_foldl_incr_nodup (countedOccs results)
  have hc := countOf_eq_of_mem _ t c hnd h
  rw [countOf_foldl_incr] at hc
  have hmem : t ∈ countedOccs results := by
    rw [← mem_keys_foldl_incr, keys]
    exact List.mem_map.mpr ⟨(t, c), h, rfl⟩
  exact ⟨by simpa [countOf] using hc.symm, hmem⟩

theorem mem_countedOccs_ne_empty (results : List AnalysisResult) (t : String)
    (h : t ∈ countedOccs results) : t ≠ "" := by
  unfold countedOccs occsOfPairs at h
  rw [List.mem_filter] at h
  simpa using h.2

theorem mem_sentOccs_of_mem_countedOccs (results : List AnalysisResult)
    (t : String) (h : t ∈ countedOccs results) :
    sentOccs results t ≠ [] := by
  unfold countedOccs occsOfPairs at h
  rw [List.mem_filter, List.mem_map] at h
  obtain ⟨⟨p, hp, hpt⟩, -⟩ := h
  unfold sentOccs
  intro hc
  rw [List.map_eq_nil_iff, List.filter_eq_nil_iff] at hc
  exact hc p hp (by simp [hpt])

/-- C4: `aggregate_topics` skips every result whose sentiment is `"Error"`
(aggregating a list is the same as aggregating its non-error sublist), a
batch of only error results aggregates to the empty list, and the empty
input aggregates to the empty list. -/
theorem aggregate_skips_error_results (results : List AnalysisResult) :
    aggregate_topics results
      = aggregate_topics (results.filter (fun r => !(r.sentiment == "Error")))
      ∧
    ((∀ r ∈ results, r.sentiment = "Error") → aggregate_topics results = [])
      ∧
    aggregate_topics ([] : List AnalysisResult) = [] := by
  refine ⟨?_, ?_, rfl⟩
  · unfold aggregate_topics
    rw [foldl_processResult_filter]
  · intro h
    have hf : results.filter (fun r => !(r.sentiment == "Error")) = [] := by
      rw [List.filter_eq_nil_iff]
      intro a ha
      simp [h a ha]
    unfold aggregate_topics
    rw [foldl_processResult_filter, hf]
    rfl

theorem aggregate_skips_error_results_witness :
    aggregate_topics [⟨"t", "Error", ["x"]⟩] = [] :=
  (aggregate_skips_error_results [⟨"t", "Error", ["x"]⟩]).2.1 (by decide)

/-- C8: the count emitted for a topic equals the total number of counted
occurrences of that trimmed topic across the topic lists of all non-error
results (one per occurrence, so a repeat inside one result's list counts
again), and it is always at least 1. -/
theorem aggregate_count_is_occurrences (results : List AnalysisResult) :
    ∀ t c d, (t, c, d) ∈ aggregate_topics results →
      c = (countedOccs results).count t ∧
      c = ((topicPairs results).map (fun p => pyStrip p.2)).count t ∧
      1 ≤ c := by
  intro t c d h
  obtain ⟨hmem, -⟩ := mem_aggregate_elim results t c d h
  obtain ⟨hc, hin⟩ := mem_aggregate_count results t c hmem
  have hne : t ≠ "" := mem_countedOccs_ne_empty results t hin
  refine ⟨hc, ?_, ?_⟩
  · rw [hc]
    unfold countedOccs occsOfPairs
    rw [List.count_filter]
    simp [hne]
  · rw [hc]
    exact List.count_pos_iff.mpr hin

theorem aggregate_count_is_occurrences_witness :
    (2 = (countedOccs [⟨"a", "Positive", ["T", " T "]⟩]).count "T" ∧
     2 = ((topicPairs [⟨"a", "Positive", ["T", " T "]⟩]).map
        (fun p => pyStrip p.2)).count "T" ∧
     1 ≤ 2) :=
  aggregate_count_is_occurrences [⟨"a", "Positive", ["T", " T "]⟩]
    "T" 2 "Positive" (by decide)

/-- C10: the dominant sentiment emitted for a topic is the sentiment of at
least one non-error result whose trimmed topic list contains that topic; in
particular it is never the string `"Error"`. -/
theorem aggregate_dominant_is_contributed (results : List AnalysisResult) :
    ∀ t c d, (t, c, d) ∈ aggregate_topics results →
      (∃ r ∈ results, r.sentiment ≠ "Error" ∧ d = r.sentiment ∧
        t ∈ r.topics.map pyStrip) ∧ d ≠ "Error" := by
  intro t c d h
  obtain ⟨hmem, hd⟩ := mem_aggregate_elim results t c d h
  obtain ⟨-, hin⟩ := mem_aggregate_count results t c hmem
  have hne : t ≠ "" := mem_countedOccs_ne_empty results t hin
  have hsents := aggregate_sents results t hne
  have hocc : sentOccs results t ≠ [] :=
    mem_sentOccs_of_mem_countedOccs results t hin
  -- the sentiment counter for t is non-empty, so firstMax returns its entry
  have hd_mem : d ∈ sentOccs results t := by
    unfold dominantOf at hd
    rw [hsents] at hd
    cases hfm : firstMax ((sentOccs results t).foldl incr []) with
    | none =>
        rw [firstMax_eq_none] at hfm
        have : keys ((sentOccs results t).foldl incr []) = [] := by
          rw [hfm]; rfl
        exfalso
        apply hocc
        cases hoc : sentOccs results t with
        | nil => rfl
        | cons a as =>
            exfalso
            have ha : a ∈ keys ((sentOccs results t).foldl incr []) := by
              rw [mem_keys_foldl_incr, hoc]
              exact List.mem_cons_self _ _
            rw [this] at ha
            cases ha
    | some m =>
        rw [hfm] at hd
        have hm : m ∈ (sentOccs results t).foldl incr [] :=
          firstMax_mem _ _ hfm
        have : m.1 ∈ sentOccs results t := by
          rw [← mem_keys_foldl_incr, keys]
          exact List.mem_map.mpr ⟨m, hm, rfl⟩
        rw [hd]
        exact this
  -- unfold the occurrence to a contributing result
  unfold sentOccs at hd_mem
  rw [List.mem_map] at hd_mem
  obtain ⟨p, hpf, hpd⟩ := hd_mem
  rw [List.mem_filter] at hpf
  obtain ⟨hpt, hptt⟩ := hpf
  unfold topicPairs at hpt
  rw [List.mem_flatMap] at hpt
  obtain ⟨r, hrf, hrp⟩ := hpt
  rw [List.mem_filter] at hrf
  obtain ⟨hr, hrne⟩ := hrf
  rw [List.mem_map] at hrp
  obtain ⟨tp, htp, htpe⟩ := hrp
  have hrs : r.sentiment ≠ "Error" := by simpa using hrne
  have hd_eq : d = r.sentiment := by
    rw [← hpd, ← htpe]
  have ht_eq : pyStrip tp = t := by
    have : pyStrip p.2 = t := by simpa using hptt
    rw [← htpe] at this
    exact this
  refine ⟨⟨r, hr, hrs, hd_eq, ?_⟩, ?_⟩
  · rw [← ht_eq]
    exact List.mem_map_of_mem pyStrip htp
  · rw [hd_eq]
    exact hrs

theorem aggregate_dominant_is_contributed_witness :
    ("Positive" : String) ≠ "Error" :=
  (aggregate_dominant_is_contributed [⟨"a", "Positive", ["T"]⟩]
    "T" 1 "Positive" (by decide)).2

theorem aggregate_topics_eq (results : List AnalysisResult) :
    aggregate_topics results
      = (sortDesc ((countedOccs results).foldl incr [])).map
          (fun p => (p.1, p.2,
            dominantOf (results.foldl processResult ⟨[], []⟩).sents p.1)) := by
  simp only [aggregate_topics]
  rw [aggregate_counts]

/-- C5: the output of `aggregate_topics` is sorted by count descending, and
entries with equal counts appear in the order in which their topics were
first counted (their first counted occurrences are ordered in the counted
occurrence stream). -/
theorem aggregate_sorted_desc_stable (results : List AnalysisResult) :
    List.Pairwise (fun a b : String × Nat × String => b.2.1 ≤ a.2.1)
      (aggregate_topics results) ∧
    List.Pairwise (fun a b : String × Nat × String => a.2.1 = b.2.1 →
      (countedOccs results).indexOf a.1 < (countedOccs results).indexOf b.1)
      (aggregate_topics results) := by
  rw [aggregate_topics_eq]
  constructor
  · rw [List.pairwise_map]
    exact sortDesc_sorted _
  · rw [List.pairwise_map]
    apply sortDesc_pairwise
    · intro a b hlt heq
      have h2 : a.2 = b.2 := heq
      omega
    · refine List.Pairwise.imp ?_
        (counts_pairwise_firstOcc (countedOccs results))
      intro a b hab heq
      exact hab

theorem dominant_firstMax (results : List AnalysisResult) (t : String)
    (hin : t ∈ countedOccs results) :
    ∃ m, firstMax ((sentOccs results t).foldl incr []) = some m ∧
      dominantOf (results.foldl processResult ⟨[], []⟩).sents t = m.1 := by
  have hne := mem_countedOccs_ne_empty results t hin
  have hsents := aggregate_sents results t hne
  have hocc := mem_sentOccs_of_mem_countedOccs results t hin
  cases hfm : firstMax ((sentOccs results t).foldl incr []) with
  | none =>
      rw [firstMax_eq_none] at hfm
      exfalso
      cases hoc : sentOccs results t with
      | nil => exact hocc hoc
      | cons a as =>
          have ha : a ∈ keys ((sentOccs results t).foldl incr []) := by
            rw [mem_keys_foldl_incr, hoc]
            exact List.mem_cons_self _ _
          rw [hfm] at ha
          simp [keys] at ha
  | some m =>
      refine ⟨m, rfl, ?_⟩
      unfold dominantOf
      rw [hsents, hfm]

/-- C6 counterexample: on `tieResults`, topic `"X"` sees the sentiment
stream `Positive, Negative, Negative, Positive`, both sentiments tie at the
maximal count 2, the claim's rule ("the sentiment that reached that count
first in processing order") selects `"Negative"` (it reaches 2 at the third
occurrence, before `"Positive"` does at the fourth), but the code emits
`"Positive"`. -/
theorem dominant_tiebreak_counterexample :
    aggregate_topics tieResults = [("X", 4, "Positive")] ∧
    sentOccs tieResults "X"
      = ["Positive", "Negative", "Negative", "Positive"] ∧
    claimDominant (sentOccs tieResults "X") = some "Negative" := by
  refine ⟨by decide, by decide, by decide⟩

/-- C6 (amended): for every emitted `(topic, count, dominant)` the dominant
sentiment attains the maximal per-topic sentiment count, and among the
sentiments tying for that maximum it is the one whose first occurrence for
the topic comes earliest in processing order (first-encountered, rather
than first to reach the maximal count). -/
theorem aggregate_dominant_max_first_encounter
    (results : List AnalysisResult) :
    ∀ t c d, (t, c, d) ∈ aggregate_topics results →
      d ∈ sentOccs results t ∧
      (∀ s ∈ sentOccs results t,
        (sentOccs results t).count s ≤ (sentOccs results t).count d) ∧
      (∀ s ∈ sentOccs results t,
        (sentOccs results t).count s = (sentOccs results t).count d →
          (sentOccs results t).indexOf d ≤ (sentOccs results t).indexOf s)
    := by
  intro t c d h
  obtain ⟨hmem, hd⟩ := mem_aggregate_elim results t c d h
  obtain ⟨-, hin⟩ := mem_aggregate_count results t c hmem
  obtain ⟨m, hfm, hdm⟩ := dominant_firstMax results t hin
  have hd_eq : d = m.1 := by rw [hd, hdm]
  have hcount : ∀ s, countOf ((sentOccs results t).foldl incr []) s
      = (sentOccs results t).count s := by
    intro s
    rw [countOf_foldl_incr]
    simp [countOf]
  have hnd := keys_foldl_incr_nodup (sentOccs results t)
  have hm_mem : m ∈ (sentOccs results t).foldl incr [] :=
    firstMax_mem _ _ hfm
  have hm_key : m.1 ∈ keys ((sentOccs results t).foldl incr []) := by
    rw [keys]; exact List.mem_map.mpr ⟨m, hm_mem, rfl⟩
  have hm2 : m.2 = (sentOccs results t).count m.1 := by
    rw [← hcount m.1]
    exact (countOf_eq_of_mem _ m.1 m.2 hnd hm_mem).symm
  have hd_in : d ∈ sentOccs results t := by
    rw [hd_eq, ← mem_keys_foldl_incr]
    exact hm_key
  refine ⟨hd_in, ?_, ?_⟩
  · intro s hs
    have hs_key : s ∈ keys ((sentOccs results t).foldl incr []) := by
      rw [mem_keys_foldl_incr]; exact hs
    have hs_cnt : (s, (sentOccs results t).count s)
        ∈ (sentOccs results t).foldl incr [] := by
      rw [← hcount s]
      exact mem_of_countOf _ s hs_key
    have hle := firstMax_le _ _ hfm _ hs_cnt
    rw [hd_eq, ← hm2]
    exact hle
  · intro s hs htie
    have hs_key : s ∈ keys ((sentOccs results t).foldl incr []) := by
      rw [mem_keys_foldl_incr]; exact hs
    have hs_cnt : (s, (sentOccs results t).count s)
        ∈ (sentOccs results t).foldl incr [] := by
      rw [← hcount s]
      exact mem_of_countOf _ s hs_key
    have hsm : (sentOccs results t).count s = m.2 := by
      rw [htie, hd_eq]
      exact hm2.symm
    obtain ⟨l1, l2, hsplit, hlt⟩ := firstMax_earliest _ _ hfm
    have hpw := counts_pairwise_firstOcc (sentOccs results t)
    rw [hsplit] at hs_cnt hpw
    rw [List.pairwise_append] at hpw
    rcases List.mem_append.mp hs_cnt with h1 | h1
    · have hlt1 := hlt _ h1
      rw [hsm] at hlt1
      omega
    · rcases List.mem_cons.mp h1 with h2 | h2
      · have hs_eq : s = m.1 := congrArg Prod.fst h2
        rw [hd_eq, hs_eq]
      · have hmz := (List.pairwise_cons.mp hpw.2.1).1 _ h2
        rw [hd_eq]
        exact le_of_lt hmz

theorem aggregate_dominant_max_first_encounter_witness :
    ("Positive" : String) ∈ sentOccs tieResults "X" :=
  (aggregate_dominant_max_first_encounter tieResults "X" 4 "Positive"
    (by decide)).1

theorem processTopic_pyStrip (st : AggState) (s tp : String) :
    processTopic st s (pyStrip tp) = processTopic st s tp := by
  unfold processTopic
  rw [pyStrip_idem]

theorem processResult_mapStrip (st : AggState) (r : AnalysisResult) :
    processResult st { r with topics := r.topics.map pyStrip }
      = processResult st r := by
  unfold processResult
  by_cases h : r.sentiment = "Error"
  · simp [h]
  · simp only [h, if_neg, ite_false]
    rw [List.foldl_map]
    have he : (fun (s : AggState) tp => processTopic s r.sentiment (pyStrip tp))
        = fun s tp => processTopic s r.sentiment tp := by
      funext s tp
      exact processTopic_pyStrip s r.sentiment tp
    rw [he]

theorem foldl_processTopic_filter (s : String) (topics : List String) :
    ∀ st : AggState,
      (topics.filter (fun tp => pyStrip tp != "")).foldl
          (fun st tp => processTopic st s tp) st
        = topics.foldl (fun st tp => processTopic st s tp) st := by
  induction topics with
  | nil => intro st; rfl
  | cons tp tps ih =>
      intro st
      by_cases h : pyStrip tp = ""
      · have hskip : processTopic st s tp = st := by simp [processTopic, h]
        simp [List.filter_cons, h, hskip, ih]
      · simp [List.filter_cons, h, ih]

theorem processResult_filterTopics (st : AggState) (r : AnalysisResult) :
    processResult st { r with topics := (r.topics.filter (fun tp => pyStrip tp != "")) }
      = processResult st r := by
  unfold processResult
  by_cases h : r.sentiment = "Error"
  · simp [h]
  · simp only [h, if_neg, ite_false]
    exact foldl_processTopic_filter r.sentiment r.topics st

/-- C7: aggregation keys topics by their trimmed string, case-sensitively:
pre-trimming every topic does not change the output, dropping
whitespace-only topics does not change the output, topics differing only in
surrounding whitespace combine into one entry with combined count, and
topics differing in case stay distinct. -/
theorem aggregate_trim_keying (results : List AnalysisResult) :
    aggregate_topics (results.map
        (fun r => { r with topics := r.topics.map pyStrip }))
      = aggregate_topics results ∧
    aggregate_topics (results.map
        (fun r => { r with topics := (r.topics.filter (fun tp => pyStrip tp != "")) }))
      = aggregate_topics results ∧
    aggregate_topics [⟨"a", "Positive", ["Fast Shipping"]⟩,
        ⟨"b", "Positive", ["  Fast Shipping  "]⟩]
      = [("Fast Shipping", 2, "Positive")] ∧
    aggregate_topics [⟨"a", "Positive", ["fast"]⟩,
        ⟨"b", "Positive", ["Fast"]⟩]
      = [("fast", 1, "Positive"), ("Fast", 1, "Positive")] := by
  refine ⟨?_, ?_, by decide, by decide⟩
  · simp only [aggregate_topics]
    rw [List.foldl_map]
    have he : (fun (st : AggState) r =>
        processResult st { r with topics := r.topics.map pyStrip })
        = processResult := by
      funext st r
      exact processResult_mapStrip st r
    rw [he]
  · simp only [aggregate_topics]
    rw [List.foldl_map]
    have he : (fun (st : AggState) r =>
        processResult st { r with topics := (r.topics.filter (fun tp => pyStrip tp != "")) })
        = processResult := by
      funext st r
      exact processResult_filterTopics st r
    rw [he]

end SentimentMiner
